import Mathlib

/-!
Shallow embedding of pypaperbak's app.py: the frame codec
(frame_data_func / unframe_data), the backup chunk loop, the qr_count
estimate and the restore write-back loop, together with theorems that
check the specification's claims about them.

Modelling conventions: Python byte strings are List Nat whose members are
below 256; Python ints are Nat (or Int where a negative value is possible);
int.to_bytes(4, 'big'), which raises OverflowError outside [0, 2^32), is
modelled with Option; the code's single UnframeError is split into one
constructor per raise site, plus a constructor for the IndexError that
bindata[0] raises on empty input.
-/

set_option maxRecDepth 100000

namespace PyPaperbak

/-- One bit step of the reflected CRC-32 with polynomial 0xEDB88320, the
algorithm behind binascii.crc32. -/
def crcBit (c : Nat) : Nat :=
  if c % 2 = 1 then (c >>> 1) ^^^ 0xEDB88320 else c >>> 1

/-- One byte step of CRC-32: xor the byte into the register, then take
eight bit steps. -/
def crcByte (c b : Nat) : Nat := crcBit^[8] (c ^^^ b)

/-- The raw CRC-32 register fold over a byte string, without the
pre/post conditioning. -/
def crcRaw (c : Nat) (data : List Nat) : Nat := data.foldl crcByte c

/-- binascii.crc32(data, seed): complement the seed, fold the data through
the register, complement the result. -/
def crc32 (data : List Nat) (seed : Nat) : Nat :=
  crcRaw (seed ^^^ 0xFFFFFFFF) data ^^^ 0xFFFFFFFF

/-- int.from_bytes(bs, 'big'). -/
def intFromBytesBE (bs : List Nat) : Nat :=
  bs.foldl (fun acc b => acc * 256 + b) 0

/-- n.to_bytes(4, 'big'): the four big-endian base-256 digits when
0 ≤ n < 2^32, none for the OverflowError raised otherwise. -/
def intToBytesBE4 (n : Int) : Option (List Nat) :=
  if 0 ≤ n ∧ n < 4294967296 then
    some [n.toNat / 16777216 % 256, n.toNat / 65536 % 256,
          n.toNat / 256 % 256, n.toNat % 256]
  else none

/-- The v1 closure produced by frame_data_func: header is the 0xb1
magic/version byte followed by sizesofar.to_bytes(4, 'big'); the footer is
crc32(bindata, crc32(header)) as four big-endian bytes; the frame is
header ++ bindata ++ footer.  The qrnumber argument is accepted and
ignored, as in the source.  none models the OverflowError raised by
to_bytes when sizesofar is outside [0, 2^32). -/
def frame_data_v1 (bindata : List Nat) (qrnumber : ℚ) (sizesofar : Int) :
    Option (List Nat) :=
  (intToBytesBE4 sizesofar).bind (fun ofsBytes =>
    (intToBytesBE4 ((crc32 bindata (crc32 (0xb1 :: ofsBytes) 0) : Nat) : Int)).bind
      (fun footer => some ((0xb1 :: ofsBytes) ++ bindata ++ footer)))

/-- The failure outcomes of unframe_data.  The source raises a single
UnframeError with three distinct messages; they are split into one
constructor each.  indexError models the Python IndexError raised by
bindata[0] on empty input, which is not an UnframeError. -/
inductive UnframeErr : Type where
  | badMagic : UnframeErr
  | badVersion : Nat → UnframeErr
  | crcMismatch : UnframeErr
  | indexError : UnframeErr
deriving DecidableEq

/-- unframe_data(bindata): magic check on bindata[0] & 0xb0, version check
on bindata[0] & 0xf, CRC check of crc32(bindata[0:-4]) against the
big-endian int in bindata[-4:], and on success the pair
(bindata[5:-4], int.from_bytes(bindata[1:5], 'big')).  Python's negative
slice bounds clamp at zero, which Nat subtraction mirrors exactly for the
slices used here. -/
def unframe_data (bindata : List Nat) : Except UnframeErr (List Nat × Nat) :=
  match bindata with
  | [] => Except.error UnframeErr.indexError
  | b0 :: rest =>
    if b0 &&& 0xb0 ≠ 0xb0 then Except.error UnframeErr.badMagic
    else if b0 &&& 0xf = 1 then
      if crc32 ((b0 :: rest).take ((b0 :: rest).length - 4)) 0
          ≠ intFromBytesBE ((b0 :: rest).drop ((b0 :: rest).length - 4)) then
        Except.error UnframeErr.crcMismatch
      else
        Except.ok (((b0 :: rest).take ((b0 :: rest).length - 4)).drop 5,
                   intFromBytesBE (rest.take 4))
    else Except.error (UnframeErr.badVersion (b0 &&& 0xf))

/-- run_backup's QR-count estimate, qr_count = infile_size / chunksize + 1.
Python 3's true division produces a float; it is modelled as an exact
rational (exact for the small integer inputs examined below). -/
def qr_count (infile_size chunksize : Nat) : ℚ :=
  (infile_size : ℚ) / (chunksize : ℚ) + 1

/-- The body of run_backup's while loop, with explicit fuel: each
iteration reads bindata = infile.read(chunksize), i.e. the next
min(chunksize, remaining) bytes, breaks when the read is empty, and
otherwise emits the pair (bindata, sizesofar) handed to the frame
function, advancing sizesofar by the bytes actually read.  When
chunksize > 0 every iteration consumes at least one byte, so d.length
units of fuel suffice to run the loop to its break. -/
def chunkLoop (chunksize : Nat) : Nat → List Nat → Nat → List (List Nat × Nat)
  | 0, _, _ => []
  | fuel + 1, d, sizesofar =>
    if d.take chunksize = [] then []
    else (d.take chunksize, sizesofar) ::
      chunkLoop chunksize fuel (d.drop chunksize)
        (sizesofar + (d.take chunksize).length)

/-- The chunk/offset sequence run_backup produces from an input stream. -/
def chunkSeq (chunksize : Nat) (d : List Nat) (sizesofar : Nat) :
    List (List Nat × Nat) :=
  chunkLoop chunksize d.length d sizesofar

/-- The restore output file, modelled as a byte-addressed map; none marks
a byte position never written. -/
def Sink : Type := Nat → Option Nat

/-- The freshly opened (empty) output file of run_restore. -/
def emptySink : Sink := fun _ => none

/-- outfile.seek(position) followed by outfile.write(bindata): positioned
overwrite of bindata.length bytes starting at position. -/
def writeAt (s : Sink) (position : Nat) (bindata : List Nat) : Sink :=
  fun i =>
    if position ≤ i ∧ i < position + bindata.length then bindata[i - position]?
    else s i

/-- Application of a sequence of already-decoded (payload, position) pairs
to the sink, in order. -/
def applyFrames (l : List (List Nat × Nat)) (s : Sink) : Sink :=
  l.foldl (fun s pd => writeAt s pd.2 pd.1) s

/-- run_restore's inner loop over the decoded strings of the scanned
images: each string is unframed and written at its position; the loop
body has no exception handler, so the first unframe_data failure
propagates and aborts the loop. -/
def run_restore_strings (strs : List (List Nat)) (s : Sink) :
    Except UnframeErr Sink :=
  match strs with
  | [] => Except.ok s
  | d :: rest =>
    match unframe_data d with
    | Except.error e => Except.error e
    | Except.ok (bindata, position) =>
      run_restore_strings rest (writeAt s position bindata)

/-- Flip bit j of byte i of a byte string. -/
def flipBit (l : List Nat) (i j : Nat) : List Nat :=
  l.set i ((l.getD i 0) ^^^ 2 ^ j)

theorem crcBit_lt {c : Nat} (h : c < 2 ^ 32) : crcBit c < 2 ^ 32 := by
  unfold crcBit
  have h1 : c >>> 1 < 2 ^ 32 := by
    rw [Nat.shiftRight_eq_div_pow]
    omega
  split
  · exact Nat.xor_lt_two_pow h1 (by norm_num)
  · exact h1

theorem crcBit_iterate_lt (k : Nat) {c : Nat} (h : c < 2 ^ 32) :
    crcBit^[k] c < 2 ^ 32 := by
  induction k generalizing c with
  | zero => simpa using h
  | succ k ih =>
    rw [Function.iterate_succ_apply]
    exact ih (crcBit_lt h)

theorem crcByte_lt {c b : Nat} (hc : c < 2 ^ 32) (hb : b < 2 ^ 32) :
    crcByte c b < 2 ^ 32 :=
  crcBit_iterate_lt 8 (Nat.xor_lt_two_pow hc hb)

theorem crcRaw_lt {data : List Nat} {c : Nat} (hc : c < 2 ^ 32)
    (hdata : ∀ b ∈ data, b < 2 ^ 32) : crcRaw c data < 2 ^ 32 := by
  induction data generalizing c with
  | nil => simpa [crcRaw] using hc
  | cons b t ih =>
    have hb : b < 2 ^ 32 := hdata b (List.mem_cons_self b t)
    have ht : ∀ x ∈ t, x < 2 ^ 32 := fun x hx => hdata x (List.mem_cons_of_mem b hx)
    simpa [crcRaw] using ih (crcByte_lt hc hb) ht

theorem crc32_lt {data : List Nat} {seed : Nat} (hs : seed < 2 ^ 32)
    (hdata : ∀ b ∈ data, b < 2 ^ 32) : crc32 data seed < 2 ^ 32 := by
  unfold crc32
  exact Nat.xor_lt_two_pow (crcRaw_lt (Nat.xor_lt_two_pow hs (by norm_num)) hdata)
    (by norm_num)

theorem crcRaw_append (c : Nat) (a b : List Nat) :
    crcRaw c (a ++ b) = crcRaw (crcRaw c a) b := by
  simp [crcRaw]

/-- C7: the chained CRC computed during encode (crc32 of the header, then
crc32 of the payload seeded with that result) equals, bit for bit, the
one-pass CRC computed during decode verification (crc32 over the header
concatenated with the payload). -/
theorem crc32_chained_eq_one_pass (header payload : List Nat) :
    crc32 (header ++ payload) 0 = crc32 payload (crc32 header 0) := by
  rw [crc32, crc32, crc32, crcRaw_append, Nat.xor_cancel_right]

/-- C9: for every offset outside [0, 2^32) — negative or at least 2^32 —
the frame encoder does not truncate the offset: the 4-byte big-endian
conversion raises (modelled as none), so no frame is produced. -/
theorem frame_data_v1_offset_overflow (bindata : List Nat) (qrnumber : ℚ)
    (sizesofar : Int) (h : sizesofar < 0 ∨ 4294967296 ≤ sizesofar) :
    frame_data_v1 bindata qrnumber sizesofar = none := by
  have hc : ¬(0 ≤ sizesofar ∧ sizesofar < 4294967296) := by omega
  simp [frame_data_v1, intToBytesBE4, hc]

/-- Witness for C9 at a concrete out-of-range offset. -/
theorem frame_data_v1_offset_overflow_witness :
    frame_data_v1 [1] 0 4294967296 = none :=
  frame_data_v1_offset_overflow [1] 0 4294967296 (Or.inr (by norm_num))

theorem intToBytesBE4_of_mem_range {n : Int} (h0 : 0 ≤ n) (h1 : n < 4294967296) :
    intToBytesBE4 n = some [n.toNat / 16777216 % 256, n.toNat / 65536 % 256,
      n.toNat / 256 % 256, n.toNat % 256] := by
  simp [intToBytesBE4, h0, h1]

theorem intFromBytesBE_digits {m : Nat} (h : m < 4294967296) :
    intFromBytesBE [m / 16777216 % 256, m / 65536 % 256,
      m / 256 % 256, m % 256] = m := by
  simp only [intFromBytesBE, List.foldl_cons, List.foldl_nil]
  omega

theorem digits_lt_256 (m : Nat) :
    ∀ b ∈ [m / 16777216 % 256, m / 65536 % 256, m / 256 % 256, m % 256],
      b < 256 := by
  intro b hb
  fin_cases hb <;> omega

theorem unframe_data_split (b0 : Nat) (mid footer : List Nat)
    (hb : b0 &&& 0xb0 = 0xb0) (hv : b0 &&& 0xf = 1)
    (hm : 4 ≤ mid.length) (hf : footer.length = 4) :
    unframe_data ((b0 :: mid) ++ footer) =
      if crc32 (b0 :: mid) 0 ≠ intFromBytesBE footer then
        Except.error UnframeErr.crcMismatch
      else Except.ok (mid.drop 4, intFromBytesBE (mid.take 4)) := by
  have e1 : (b0 :: mid) ++ footer = b0 :: (mid ++ footer) := rfl
  have hlen : (b0 :: (mid ++ footer)).length - 4 = mid.length + 1 := by
    simp only [List.length_cons, List.length_append, hf]
    omega
  have htake : (b0 :: (mid ++ footer)).take (mid.length + 1) = b0 :: mid := by
    rw [List.take_succ_cons, List.take_left]
  have hdrop : (b0 :: (mid ++ footer)).drop (mid.length + 1) = footer := by
    rw [List.drop_succ_cons, List.drop_left]
  have hpos : (mid ++ footer).take 4 = mid.take 4 := by
    rw [List.take_append_eq_append_take, Nat.sub_eq_zero_of_le hm]
    simp
  rw [e1]
  simp only [unframe_data, hlen, htake, hdrop, hpos, hb, hv]
  simp

theorem unframe_data_good_frame (mid footer : List Nat)
    (hm : 4 ≤ mid.length) (hf : footer.length = 4)
    (hcrc : intFromBytesBE footer = crc32 (0xb1 :: mid) 0) :
    unframe_data ((0xb1 :: mid) ++ footer) =
      Except.ok (mid.drop 4, intFromBytesBE (mid.take 4)) := by
  rw [unframe_data_split 0xb1 mid footer (by decide) (by decide) hm hf, hcrc]
  simp

theorem intToBytesBE4_spec {n : Int} (h0 : 0 ≤ n) (h1 : n < 4294967296) :
    ∃ bs, intToBytesBE4 n = some bs ∧ bs.length = 4 ∧ (∀ b ∈ bs, b < 256) ∧
      intFromBytesBE bs = n.toNat :=
  ⟨_, intToBytesBE4_of_mem_range h0 h1, rfl, digits_lt_256 n.toNat,
    intFromBytesBE_digits (by omega)⟩

theorem frame_data_v1_some (payload ob fb : List Nat) (qrnumber : ℚ) (off : Int)
    (hob : intToBytesBE4 off = some ob)
    (hfb : intToBytesBE4 ((crc32 payload (crc32 (0xb1 :: ob) 0) : Nat) : Int) =
      some fb) :
    frame_data_v1 payload qrnumber off = some ((0xb1 :: ob) ++ payload ++ fb) := by
  rw [frame_data_v1, hob, Option.some_bind, hfb, Option.some_bind]

theorem unframe_frame_data_v1 (payload : List Nat) (hp : ∀ b ∈ payload, b < 256)
    (qrnumber : ℚ) (off : Int) (h0 : 0 ≤ off) (h1 : off < 4294967296) :
    ∃ frame, frame_data_v1 payload qrnumber off = some frame ∧
      unframe_data frame = Except.ok (payload, off.toNat) := by
  obtain ⟨ob, hob, hob4, hobB, hobv⟩ := intToBytesBE4_spec h0 h1
  have hhead : ∀ b ∈ (0xb1 :: ob), b < 2 ^ 32 := by
    intro b hb
    rcases List.mem_cons.mp hb with h | h
    · omega
    · have := hobB b h
      omega
  have hpw : ∀ b ∈ payload, b < 2 ^ 32 := by
    intro b hb
    have := hp b hb
    omega
  have hw : crc32 payload (crc32 (0xb1 :: ob) 0) < 2 ^ 32 :=
    crc32_lt (crc32_lt (by norm_num) hhead) hpw
  obtain ⟨fb, hfb, hfb4, hfbB, hfbv⟩ := intToBytesBE4_spec
    (n := ((crc32 payload (crc32 (0xb1 :: ob) 0) : Nat) : Int))
    (by positivity) (by exact_mod_cast hw)
  refine ⟨(0xb1 :: ob) ++ payload ++ fb,
    frame_data_v1_some payload ob fb qrnumber off hob hfb, ?_⟩
  have hassoc : (0xb1 :: ob) ++ payload ++ fb = (0xb1 :: (ob ++ payload)) ++ fb := by
    simp
  have hcrc : intFromBytesBE fb = crc32 (0xb1 :: (ob ++ payload)) 0 := by
    have hsplit : (0xb1 :: (ob ++ payload)) = (0xb1 :: ob) ++ payload := by simp
    rw [hsplit, crc32_chained_eq_one_pass, hfbv, Int.toNat_natCast]
  rw [hassoc, unframe_data_good_frame (ob ++ payload) fb
    (by simp [hob4]) hfb4 hcrc]
  rw [List.drop_left' hob4, List.take_left' hob4, hobv]

/-- C1: for every payload byte sequence (including the empty sequence) and
every offset in [0, 2^32), decoding the frame produced by encoding returns
exactly the original payload and offset. -/
theorem frame_roundtrip (payload : List Nat) (hp : ∀ b ∈ payload, b < 256)
    (qrnumber : ℚ) (off : Int) (h0 : 0 ≤ off) (h1 : off < 4294967296) :
    ∃ frame, frame_data_v1 payload qrnumber off = some frame ∧
      unframe_data frame = Except.ok (payload, off.toNat) :=
  unframe_frame_data_v1 payload hp qrnumber off h0 h1

/-- Witness for C1 at payload [65, 66] and offset 7. -/
theorem frame_roundtrip_witness :
    (∀ b ∈ ([65, 66] : List Nat), b < 256) ∧
    ∃ frame, frame_data_v1 [65, 66] 3 7 = some frame ∧
      unframe_data frame = Except.ok ([65, 66], (7 : Int).toNat) :=
  ⟨by decide, frame_roundtrip [65, 66] (by decide) 3 7 (by decide) (by decide)⟩

/-- C10: unframe_data enforces no upper bound on the payload length; a
well-formed frame whose payload is longer than the configured chunk size
still decodes to that payload. -/
theorem unframe_data_no_payload_bound (chunksize : Nat) (payload : List Nat)
    (hlong : chunksize < payload.length) (hp : ∀ b ∈ payload, b < 256)
    (qrnumber : ℚ) (off : Int) (h0 : 0 ≤ off) (h1 : off < 4294967296)
    (frame : List Nat) (hframe : frame_data_v1 payload qrnumber off = some frame) :
    unframe_data frame = Except.ok (payload, off.toNat) := by
  obtain ⟨f, hf, hu⟩ := unframe_frame_data_v1 payload hp qrnumber off h0 h1
  rw [hframe] at hf
  injection hf with h
  rw [h]
  exact hu

/-- Witness for C10: a payload of 2 bytes with chunk size 1. -/
theorem unframe_data_no_payload_bound_witness :
    unframe_data ((frame_data_v1 [65, 66] 3 7).getD []) =
      Except.ok ([65, 66], (7 : Int).toNat) :=
  unframe_data_no_payload_bound 1 [65, 66] (by decide) (by decide) 3 7
    (by decide) (by decide) _ rfl

/-- Counterexample to C2 as stated: the code's magic test is
(b0 & 0xb0) == 0xb0, which also accepts high nibble 0xF.  This input's
first byte is 0xF1, whose high nibble is not 0xB, yet it decodes
successfully rather than failing with FormatError. -/
theorem unframe_data_accepts_foreign_nibble :
    (0xf1 : Nat) / 16 ≠ 0xb ∧
    unframe_data (0xf1 :: 0 :: 0 :: 0 :: 0 ::
      [crc32 [0xf1, 0, 0, 0, 0] 0 / 16777216 % 256,
       crc32 [0xf1, 0, 0, 0, 0] 0 / 65536 % 256,
       crc32 [0xf1, 0, 0, 0, 0] 0 / 256 % 256,
       crc32 [0xf1, 0, 0, 0, 0] 0 % 256]) = Except.ok ([], 0) :=
  ⟨by decide, rfl⟩

/-- C2 (amended): a byte sequence is rejected with FormatError exactly
when its first byte fails (b0 & 0xb0) == 0xb0; in nibble terms, any first
byte whose high nibble is neither 0xB nor 0xF is rejected with
FormatError, regardless of the sequence's length or remaining content. -/
theorem unframe_data_magic_reject (b0 : Nat) (hb : b0 < 256)
    (h11 : b0 / 16 ≠ 0xb) (h15 : b0 / 16 ≠ 0xf) (rest : List Nat) :
    unframe_data (b0 :: rest) = Except.error UnframeErr.badMagic := by
  have hall : ∀ b < 256, b / 16 ≠ 0xb → b / 16 ≠ 0xf → b &&& 0xb0 ≠ 0xb0 := by
    decide
  have hmagic : b0 &&& 0xb0 ≠ 0xb0 := hall b0 hb h11 h15
  simp [unframe_data, hmagic]

/-- Witness for C2 (amended) at first byte 0x41. -/
theorem unframe_data_magic_reject_witness :
    unframe_data [0x41, 1, 2] = Except.error UnframeErr.badMagic :=
  unframe_data_magic_reject 0x41 (by decide) (by decide) (by decide) [1, 2]

/-- Counterexample to C3 as stated: this 5-byte input (shorter than the
9-byte minimum frame size) decodes successfully, because unframe_data
performs no length check and its trailer slice overlaps the header. -/
theorem unframe_data_accepts_five_bytes :
    (0xb1 :: [crc32 [0xb1] 0 / 16777216 % 256, crc32 [0xb1] 0 / 65536 % 256,
      crc32 [0xb1] 0 / 256 % 256, crc32 [0xb1] 0 % 256]).length < 9 ∧
    unframe_data (0xb1 :: [crc32 [0xb1] 0 / 16777216 % 256,
      crc32 [0xb1] 0 / 65536 % 256, crc32 [0xb1] 0 / 256 % 256,
      crc32 [0xb1] 0 % 256]) = Except.ok ([], crc32 [0xb1] 0) :=
  ⟨by decide, rfl⟩

theorem foldl_base256_le (acc : Nat) (l : List Nat) :
    acc ≤ l.foldl (fun a b => a * 256 + b) acc := by
  induction l generalizing acc with
  | nil => exact Nat.le_refl acc
  | cons b t ih =>
    refine Nat.le_trans ?_ (ih (acc * 256 + b))
    have : acc ≤ acc * 256 := Nat.le_mul_of_pos_right acc (by norm_num)
    omega

theorem intFromBytesBE_cons_pos {b0 : Nat} (h : 0 < b0) (rest : List Nat) :
    0 < intFromBytesBE (b0 :: rest) := by
  have h1 : intFromBytesBE (b0 :: rest) = rest.foldl (fun a b => a * 256 + b) b0 := by
    simp [intFromBytesBE]
  rw [h1]
  exact Nat.lt_of_lt_of_le h (foldl_base256_le b0 rest)

/-- C3 (amended): every input shorter than 5 bytes fails unframe_data,
though not always with FormatError: the empty input fails with the
IndexError from bindata[0], a wrong magic pattern with FormatError, a
wrong version nibble with UnsupportedVersionError and the remaining
cases with IntegrityError; inputs of length 5 to 8 can decode
successfully (see the counterexample). -/
theorem unframe_data_short_reject (bindata : List Nat)
    (h : bindata.length < 5) : ∃ e, unframe_data bindata = Except.error e := by
  cases bindata with
  | nil => exact ⟨UnframeErr.indexError, rfl⟩
  | cons b0 rest =>
    by_cases hm : b0 &&& 0xb0 ≠ 0xb0
    · exact ⟨UnframeErr.badMagic, by simp [unframe_data, hm]⟩
    · push_neg at hm
      by_cases hv : b0 &&& 0xf = 1
      · refine ⟨UnframeErr.crcMismatch, ?_⟩
        have hlen : rest.length - 3 = 0 := by
          simp only [List.length_cons] at h
          omega
        have hb0 : 0 < b0 := by
          have : 0xb0 ≤ b0 := by
            calc (0xb0 : Nat) = b0 &&& 0xb0 := hm.symm
              _ ≤ b0 := Nat.and_le_left
          omega
        have hne : crc32 (List.take (rest.length - 3) (b0 :: rest)) 0
            ≠ intFromBytesBE (List.drop (rest.length - 3) (b0 :: rest)) := by
          rw [hlen, List.take_zero, List.drop_zero]
          have hpos := intFromBytesBE_cons_pos hb0 rest
          have hc : crc32 [] 0 = 0 := rfl
          omega
        simp [unframe_data, hm, hv, hne]
      · exact ⟨UnframeErr.badVersion (b0 &&& 0xf), by simp [unframe_data, hm, hv]⟩

/-- Witness for C3 (amended) at the 1-byte input [0xb1]. -/
theorem unframe_data_short_reject_witness :
    ([0xb1] : List Nat).length < 5 ∧ ∃ e, unframe_data [0xb1] = Except.error e :=
  ⟨by decide, unframe_data_short_reject [0xb1] (by decide)⟩

/-- Counterexample to C4 as stated: run_restore's loop has no exception
handler, so a decode failure on one string is fatal.  With a non-frame
string followed by a valid frame, the run aborts with the first error and
the valid frame — which decodes fine on its own, writing byte 65 at
offset 0 — is never applied. -/
theorem run_restore_strings_not_resilient :
    (frame_data_v1 [65] 0 0).map
      (fun f => run_restore_strings [[0], f] emptySink) =
      some (Except.error UnframeErr.badMagic) ∧
    (frame_data_v1 [65] 0 0).map
      (fun f => (run_restore_strings [f] emptySink).map (fun s => s 0)) =
      some (Except.ok (some 65)) :=
  ⟨rfl, rfl⟩

/-- C4 (amended): a frame-decode failure on one decoded string is fatal
to the restore run: the error propagates out of the loop immediately, so
the remaining decoded strings are not processed (the result does not
depend on them). -/
theorem run_restore_strings_abort (s : List Nat) (e : UnframeErr)
    (he : unframe_data s = Except.error e) (rest : List (List Nat))
    (sink : Sink) :
    run_restore_strings (s :: rest) sink = Except.error e := by
  simp [run_restore_strings, he]

/-- Witness for C4 (amended): a magic failure on the first string aborts
the run whatever follows. -/
theorem run_restore_strings_abort_witness :
    run_restore_strings [[0], [0xb1, 1]] emptySink =
      Except.error UnframeErr.badMagic :=
  run_restore_strings_abort [0] UnframeErr.badMagic rfl [[0xb1, 1]] emptySink

/-- Counterexample to C5 as stated: for a 4-byte input and chunk size 4,
run_backup reports qr_count = 4/4 + 1 = 2, while ceil(4/4) = 1; indeed the
chunk loop emits exactly 1 chunk. -/
theorem qr_count_not_ceil :
    qr_count 4 4 = 2 ∧ Int.ceil ((4 : ℚ) / (4 : ℚ)) = 1 ∧
    (chunkSeq 4 [1, 2, 3, 4] 0).length = 1 := by
  refine ⟨by norm_num [qr_count], by norm_num, rfl⟩

/-- C5 (amended): the backup path reports the total expected chunk count
as S/C + 1 under true division (a float in Python, modelled as an exact
rational), which is at least 1 and at least ceil(S/C), but is not equal
to ceil(S/C) in general (it exceeds it when C divides S). -/
theorem qr_count_overestimate (S C : Nat) (hC : 0 < C) :
    qr_count S C = (S : ℚ) / (C : ℚ) + 1 ∧ 1 ≤ qr_count S C ∧
    (Int.ceil ((S : ℚ) / (C : ℚ)) : ℚ) ≤ qr_count S C := by
  refine ⟨rfl, ?_, ?_⟩
  · have h : (0 : ℚ) ≤ (S : ℚ) / (C : ℚ) := by positivity
    unfold qr_count
    linarith
  · unfold qr_count
    exact le_of_lt (Int.ceil_lt_add_one _)

/-- Witness for C5 (amended) at S = 8, C = 3. -/
theorem qr_count_overestimate_witness :
    qr_count 8 3 = (8 : ℚ) / (3 : ℚ) + 1 ∧ 1 ≤ qr_count 8 3 ∧
    (Int.ceil ((8 : ℚ) / (3 : ℚ)) : ℚ) ≤ qr_count 8 3 :=
  qr_count_overestimate 8 3 (by decide)

theorem chunkLoop_mem_bounds (chunksize : Nat) :
    ∀ (fuel : Nat) (d : List Nat) (ofs : Nat), d.length ≤ fuel →
      ∀ p off, (p, off) ∈ chunkLoop chunksize fuel d ofs →
        ofs ≤ off ∧ off + p.length ≤ ofs + d.length := by
  intro fuel
  induction fuel with
  | zero =>
    intro d ofs _ p off h
    simp [chunkLoop] at h
  | succ fuel ih =>
    intro d ofs hfuel p off h
    simp only [chunkLoop] at h
    split at h
    · simp at h
    · rename_i htake
      rcases List.mem_cons.mp h with heq | htl
      · obtain ⟨hp, hoff⟩ := Prod.mk.injEq .. ▸ heq
        have hlt : (d.take chunksize).length ≤ d.length := by
          rw [List.length_take]
          omega
        subst hp
        omega
      · have hcz : chunksize ≠ 0 ∧ d ≠ [] := by
          by_contra hc
          rw [Classical.not_and_iff_or_not_not] at hc
          apply htake
          rw [List.take_eq_nil_iff]
          tauto
        have hd1 : 1 ≤ d.length := by
          cases d with
          | nil => exact absurd rfl hcz.2
          | cons a t => simp
        have hfe : (d.drop chunksize).length ≤ fuel := by
          rw [List.length_drop]
          have := hcz.1
          omega
        have := ih (d.drop chunksize) (ofs + (d.take chunksize).length) hfe p off htl
        rw [List.length_take, List.length_drop] at *
        omega

theorem chunkLoop_pairwise (chunksize : Nat) :
    ∀ (fuel : Nat) (d : List Nat) (ofs : Nat), d.length ≤ fuel →
      List.Pairwise (fun a b : List Nat × Nat =>
        a.2 + a.1.length ≤ b.2 ∨ b.2 + b.1.length ≤ a.2)
        (chunkLoop chunksize fuel d ofs) := by
  intro fuel
  induction fuel with
  | zero =>
    intro d ofs _
    simp [chunkLoop]
  | succ fuel ih =>
    intro d ofs hfuel
    simp only [chunkLoop]
    split
    · exact List.Pairwise.nil
    · rename_i htake
      have hcz : chunksize ≠ 0 ∧ d ≠ [] := by
        by_contra hc
        rw [Classical.not_and_iff_or_not_not] at hc
        apply htake
        rw [List.take_eq_nil_iff]
        tauto
      have hd1 : 1 ≤ d.length := by
        cases d with
        | nil => exact absurd rfl hcz.2
        | cons a t => simp
      have hfe : (d.drop chunksize).length ≤ fuel := by
        rw [List.length_drop]
        have := hcz.1
        omega
      refine List.Pairwise.cons ?_ (ih (d.drop chunksize) _ hfe)
      intro pr hpr
      left
      exact (chunkLoop_mem_bounds chunksize fuel (d.drop chunksize) _ hfe
        pr.1 pr.2 hpr).1

theorem chunkLoop_covers (chunksize : Nat) (hc : 0 < chunksize) :
    ∀ (fuel : Nat) (d : List Nat) (ofs i : Nat), d.length ≤ fuel →
      i < d.length →
      ∃ p off, (p, off) ∈ chunkLoop chunksize fuel d ofs ∧
        off ≤ ofs + i ∧ ofs + i < off + p.length ∧
        p[ofs + i - off]? = d[i]? := by
  intro fuel
  induction fuel with
  | zero =>
    intro d ofs i hfuel hi
    omega
  | succ fuel ih =>
    intro d ofs i hfuel hi
    have hd : d ≠ [] := by
      intro hnil
      rw [hnil] at hi
      simp at hi
    have htake : ¬(d.take chunksize = []) := by
      rw [List.take_eq_nil_iff]
      push_neg
      exact ⟨by omega, hd⟩
    simp only [chunkLoop]
    rw [if_neg htake]
    by_cases hic : i < chunksize
    · refine ⟨d.take chunksize, ofs, List.mem_cons_self _ _, Nat.le_add_right _ _,
        ?_, ?_⟩
      · rw [List.length_take]
        omega
      · rw [Nat.add_sub_cancel_left]
        exact List.getElem?_take_of_lt hic
    · push_neg at hic
      have hd1 : 1 ≤ d.length := by omega
      have hfe : (d.drop chunksize).length ≤ fuel := by
        rw [List.length_drop]
        omega
      have hi2 : i - chunksize < (d.drop chunksize).length := by
        rw [List.length_drop]
        omega
      obtain ⟨p, off, hmem, h1, h2, h3⟩ :=
        ih (d.drop chunksize) (ofs + (d.take chunksize).length) (i - chunksize)
          hfe hi2
      have ht : (d.take chunksize).length = chunksize := by
        rw [List.length_take]
        omega
      rw [ht] at h1 h2 h3
      have e1 : ofs + chunksize + (i - chunksize) = ofs + i := by omega
      rw [e1] at h1 h2 h3
      rw [List.getElem?_drop] at h3
      have e2 : chunksize + (i - chunksize) = i := by omega
      rw [e2] at h3
      exact ⟨p, off, List.mem_cons_of_mem _ hmem, h1, h2, h3⟩

theorem applyFrames_cons (a : List Nat × Nat) (l : List (List Nat × Nat))
    (s : Sink) : applyFrames (a :: l) s = applyFrames l (writeAt s a.2 a.1) :=
  rfl

theorem applyFrames_not_covered (l : List (List Nat × Nat)) (j : Nat)
    (h : ∀ pr ∈ l, ¬(pr.2 ≤ j ∧ j < pr.2 + pr.1.length)) (s : Sink) :
    applyFrames l s j = s j := by
  induction l generalizing s with
  | nil => rfl
  | cons hd tl ih =>
    rw [applyFrames_cons]
    rw [ih (fun pr hpr => h pr (List.mem_cons_of_mem _ hpr))]
    have hh := h hd (List.mem_cons_self _ _)
    simp only [writeAt]
    rw [if_neg hh]

theorem applyFrames_covered (l : List (List Nat × Nat))
    (hpw : List.Pairwise (fun a b : List Nat × Nat =>
      a.2 + a.1.length ≤ b.2 ∨ b.2 + b.1.length ≤ a.2) l)
    (p : List Nat) (off : Nat) (hmem : (p, off) ∈ l) (j : Nat)
    (h1 : off ≤ j) (h2 : j < off + p.length) (s : Sink) :
    applyFrames l s j = p[j - off]? := by
  induction l generalizing s with
  | nil => simp at hmem
  | cons hd tl ih =>
    rcases List.mem_cons.mp hmem with heq | htl
    · rw [applyFrames_cons]
      have hnone : ∀ pr ∈ tl, ¬(pr.2 ≤ j ∧ j < pr.2 + pr.1.length) := by
        intro pr hpr
        have hdis := (List.pairwise_cons.mp hpw).1 pr hpr
        rw [← heq] at hdis
        dsimp only at hdis
        rintro ⟨ha, hb⟩
        rcases hdis with hd1 | hd2
        · omega
        · omega
      rw [applyFrames_not_covered tl j hnone]
      rw [← heq]
      simp only [writeAt]
      rw [if_pos ⟨h1, h2⟩]
    · rw [applyFrames_cons]
      exact ih (List.pairwise_cons.mp hpw).2 htl _

/-- C8: for every file split into chunks at offsets 0, C, 2C, ... and
every permutation of the resulting decoded (payload, offset) pairs,
applying the permuted pairs to a fresh sink by positioned writes yields
output byte-identical to the original file on every covered position. -/
theorem restore_of_chunks_perm (file : List Nat) (chunksize : Nat)
    (hC : 0 < chunksize) (l : List (List Nat × Nat))
    (hl : l.Perm (chunkSeq chunksize file 0)) (i : Nat)
    (hi : i < file.length) :
    applyFrames l emptySink i = file[i]? := by
  obtain ⟨p, off, hmem, h1, h2, h3⟩ :=
    chunkLoop_covers chunksize hC file.length file 0 i (Nat.le_refl _) hi
  rw [Nat.zero_add] at h1 h2 h3
  have hpw := chunkLoop_pairwise chunksize file.length file 0 (Nat.le_refl _)
  have hpwl := List.Pairwise.perm hpw hl.symm (fun h => h.symm)
  have hmem2 : (p, off) ∈ l := hl.mem_iff.mpr hmem
  rw [applyFrames_covered l hpwl p off hmem2 i h1 h2 emptySink]
  exact h3

/-- Witness for C8: the two chunks of [7, 9] at chunk size 1, applied in
swapped order, reproduce byte 1 of the file. -/
theorem restore_of_chunks_perm_witness :
    applyFrames [([9], 1), ([7], 0)] emptySink 1 = [7, 9][1]? :=
  restore_of_chunks_perm [7, 9] 1 (by decide) [([9], 1), ([7], 0)]
    (List.Perm.swap ([7], 0) ([9], 1) []) 1 (by decide)

theorem crcRaw_cons (c b : Nat) (t : List Nat) :
    crcRaw c (b :: t) = crcRaw (crcByte c b) t :=
  rfl

theorem crcBit_inj {c c2 : Nat} (hc : c < 2 ^ 32) (hc2 : c2 < 2 ^ 32)
    (h : crcBit c = crcBit c2) : c = c2 := by
  have hdiv : ∀ x : Nat, x >>> 1 = x / 2 := fun x => by
    rw [Nat.shiftRight_eq_div_pow]
  have hP : Nat.testBit 0xEDB88320 31 = true := by decide
  have hhi : ∀ x : Nat, x < 2 ^ 32 → (x >>> 1).testBit 31 = false := by
    intro x hx
    rw [Nat.testBit_shiftRight]
    exact Nat.testBit_eq_false_of_lt (by omega)
  unfold crcBit at h
  by_cases p1 : c % 2 = 1 <;> by_cases p2 : c2 % 2 = 1
  · rw [if_pos p1, if_pos p2] at h
    have hq : c >>> 1 = c2 >>> 1 := Nat.xor_left_injective h
    rw [hdiv, hdiv] at hq
    omega
  · rw [if_pos p1, if_neg p2] at h
    exfalso
    have hb : ((c >>> 1) ^^^ 0xEDB88320).testBit 31 = (c2 >>> 1).testBit 31 := by
      rw [h]
    rw [Nat.testBit_xor, hhi c hc, hhi c2 hc2, hP] at hb
    simp at hb
  · rw [if_neg p1, if_pos p2] at h
    exfalso
    have hb : (c >>> 1).testBit 31 = ((c2 >>> 1) ^^^ 0xEDB88320).testBit 31 := by
      rw [h]
    rw [Nat.testBit_xor, hhi c hc, hhi c2 hc2, hP] at hb
    simp at hb
  · rw [if_neg p1, if_neg p2] at h
    rw [hdiv, hdiv] at h
    omega

theorem crcBit_iterate_inj (k : Nat) {c c2 : Nat} (hc : c < 2 ^ 32)
    (hc2 : c2 < 2 ^ 32) (h : crcBit^[k] c = crcBit^[k] c2) : c = c2 := by
  induction k generalizing c c2 with
  | zero => simpa using h
  | succ k ih =>
    rw [Function.iterate_succ_apply, Function.iterate_succ_apply] at h
    exact crcBit_inj hc hc2 (ih (crcBit_lt hc) (crcBit_lt hc2) h)

theorem crcByte_state_inj {c c2 b : Nat} (hc : c < 2 ^ 32) (hc2 : c2 < 2 ^ 32)
    (hb : b < 2 ^ 32) (h : crcByte c b = crcByte c2 b) : c = c2 := by
  have h2 : c ^^^ b = c2 ^^^ b :=
    crcBit_iterate_inj 8 (Nat.xor_lt_two_pow hc hb) (Nat.xor_lt_two_pow hc2 hb) h
  exact Nat.xor_left_injective h2

theorem crcRaw_state_inj (data : List Nat) (hdata : ∀ b ∈ data, b < 2 ^ 32) :
    ∀ {c c2 : Nat}, c < 2 ^ 32 → c2 < 2 ^ 32 →
      crcRaw c data = crcRaw c2 data → c = c2 := by
  induction data with
  | nil =>
    intro c c2 _ _ h
    simpa [crcRaw] using h
  | cons b t ih =>
    intro c c2 hc hc2 h
    have hb : b < 2 ^ 32 := hdata b (List.mem_cons_self _ _)
    have ht : ∀ x ∈ t, x < 2 ^ 32 := fun x hx => hdata x (List.mem_cons_of_mem _ hx)
    rw [crcRaw_cons, crcRaw_cons] at h
    exact crcByte_state_inj hc hc2 hb
      (ih ht (crcByte_lt hc hb) (crcByte_lt hc2 hb) h)

theorem crc32_flip_ne (pre : List Nat) (x y : Nat) (suf : List Nat)
    (hpre : ∀ b ∈ pre, b < 2 ^ 32) (hsuf : ∀ b ∈ suf, b < 2 ^ 32)
    (hx : x < 2 ^ 32) (hy : y < 2 ^ 32) (hne : x ≠ y) :
    crc32 (pre ++ x :: suf) 0 ≠ crc32 (pre ++ y :: suf) 0 := by
  intro h
  apply hne
  unfold crc32 at h
  have h1 : crcRaw (0 ^^^ 0xFFFFFFFF) (pre ++ x :: suf) =
      crcRaw (0 ^^^ 0xFFFFFFFF) (pre ++ y :: suf) := Nat.xor_left_injective h
  rw [crcRaw_append, crcRaw_append, crcRaw_cons, crcRaw_cons] at h1
  have hs : crcRaw (0 ^^^ 0xFFFFFFFF) pre < 2 ^ 32 :=
    crcRaw_lt (by norm_num) hpre
  have h2 : crcByte (crcRaw (0 ^^^ 0xFFFFFFFF) pre) x =
      crcByte (crcRaw (0 ^^^ 0xFFFFFFFF) pre) y :=
    crcRaw_state_inj suf hsuf (crcByte_lt hs hx) (crcByte_lt hs hy) h1
  have h3 : crcRaw (0 ^^^ 0xFFFFFFFF) pre ^^^ x =
      crcRaw (0 ^^^ 0xFFFFFFFF) pre ^^^ y :=
    crcBit_iterate_inj 8 (Nat.xor_lt_two_pow hs hx) (Nat.xor_lt_two_pow hs hy) h2
  exact Nat.xor_right_injective h3

theorem getD_mem_of_lt {l : List Nat} {i : Nat} (h : i < l.length) (d : Nat) :
    l.getD i d ∈ l := by
  induction l generalizing i with
  | nil => simp at h
  | cons a t ih =>
    cases i with
    | zero => simp
    | succ i2 =>
      rw [List.getD_cons_succ]
      have h2 : i2 < t.length := by simpa using h
      exact List.mem_cons_of_mem a (ih h2)

theorem take_getD_drop {l : List Nat} {i : Nat} (h : i < l.length) :
    l = l.take i ++ l.getD i 0 :: l.drop (i + 1) := by
  induction l generalizing i with
  | nil => simp at h
  | cons a t ih =>
    cases i with
    | zero => simp
    | succ i2 =>
      have h2 : i2 < t.length := by simpa using h
      calc a :: t = a :: (t.take i2 ++ t.getD i2 0 :: t.drop (i2 + 1)) := by
            rw [← ih h2]
        _ = _ := by simp

theorem crc32_set_ne (body : List Nat) (hbody : ∀ b ∈ body, b < 256)
    (i j : Nat) (hi : i < body.length) (hj : j < 8) :
    crc32 (body.set i (body.getD i 0 ^^^ 2 ^ j)) 0 ≠ crc32 body 0 := by
  have hx256 : body.getD i 0 < 256 := hbody _ (getD_mem_of_lt hi 0)
  have hpre : ∀ b ∈ body.take i, b < 2 ^ 32 := by
    intro b hb
    have := hbody b (List.mem_of_mem_take hb)
    omega
  have hsuf : ∀ b ∈ body.drop (i + 1), b < 2 ^ 32 := by
    intro b hb
    have := hbody b (List.mem_of_mem_drop hb)
    omega
  have hppos : 0 < 2 ^ j := Nat.pos_pow_of_pos j (by norm_num)
  have hplt : (2 : Nat) ^ j < 2 ^ 32 :=
    Nat.pow_lt_pow_right (by norm_num) (by omega)
  have hne : body.getD i 0 ^^^ 2 ^ j ≠ body.getD i 0 := by
    intro hcontra
    have h0 : body.getD i 0 ^^^ 2 ^ j = body.getD i 0 ^^^ 0 := by
      rw [Nat.xor_zero]
      exact hcontra
    have := Nat.xor_right_injective h0
    omega
  have hxlt : body.getD i 0 ^^^ 2 ^ j < 2 ^ 32 :=
    Nat.xor_lt_two_pow (by omega) hplt
  rw [List.set_eq_take_cons_drop _ hi]
  conv_rhs => rw [take_getD_drop hi]
  exact crc32_flip_ne (body.take i) _ _ (body.drop (i + 1)) hpre hsuf hxlt
    (by omega) hne

theorem unframe_data_crc_reject (b0 : Nat) (mid fb : List Nat)
    (hb : b0 &&& 0xb0 = 0xb0) (hv : b0 &&& 0xf = 1) (hm : 4 ≤ mid.length)
    (hf : fb.length = 4) (hne : crc32 (b0 :: mid) 0 ≠ intFromBytesBE fb) :
    unframe_data ((b0 :: mid) ++ fb) = Except.error UnframeErr.crcMismatch := by
  rw [unframe_data_split b0 mid fb hb hv hm hf, if_pos hne]

theorem unframe_data_head_reject (b0 : Nat) (rest : List Nat)
    (h : b0 &&& 0xb0 ≠ 0xb0 ∨ b0 &&& 0xf ≠ 1) :
    ∃ e, unframe_data (b0 :: rest) = Except.error e := by
  by_cases hm : b0 &&& 0xb0 ≠ 0xb0
  · exact ⟨UnframeErr.badMagic, by simp [unframe_data, hm]⟩
  · push_neg at hm
    have hv : b0 &&& 0xf ≠ 1 := by tauto
    exact ⟨UnframeErr.badVersion (b0 &&& 0xf), by simp [unframe_data, hm, hv]⟩

theorem frame_structure (payload : List Nat) (hp : ∀ b ∈ payload, b < 256)
    (qrnumber : ℚ) (off : Int) (h0 : 0 ≤ off) (h1 : off < 4294967296) :
    ∃ ob fb,
      frame_data_v1 payload qrnumber off = some ((0xb1 :: ob) ++ payload ++ fb) ∧
      ob.length = 4 ∧ (∀ b ∈ ob, b < 256) ∧ intFromBytesBE ob = off.toNat ∧
      fb.length = 4 ∧ (∀ b ∈ fb, b < 256) ∧
      intFromBytesBE fb = crc32 (0xb1 :: (ob ++ payload)) 0 := by
  obtain ⟨ob, hob, hob4, hobB, hobv⟩ := intToBytesBE4_spec h0 h1
  have hhead : ∀ b ∈ (0xb1 :: ob), b < 2 ^ 32 := by
    intro b hb
    rcases List.mem_cons.mp hb with h | h
    · omega
    · have := hobB b h
      omega
  have hpw : ∀ b ∈ payload, b < 2 ^ 32 := by
    intro b hb
    have := hp b hb
    omega
  have hw : crc32 payload (crc32 (0xb1 :: ob) 0) < 2 ^ 32 :=
    crc32_lt (crc32_lt (by norm_num) hhead) hpw
  obtain ⟨fb, hfb, hfb4, hfbB, hfbv⟩ := intToBytesBE4_spec
    (n := ((crc32 payload (crc32 (0xb1 :: ob) 0) : Nat) : Int))
    (by positivity) (by exact_mod_cast hw)
  refine ⟨ob, fb, frame_data_v1_some payload ob fb qrnumber off hob hfb,
    hob4, hobB, hobv, hfb4, hfbB, ?_⟩
  have hsplit : (0xb1 :: (ob ++ payload)) = (0xb1 :: ob) ++ payload := by simp
  rw [hsplit, crc32_chained_eq_one_pass, hfbv, Int.toNat_natCast]

/-- C6 (amended): flipping any single bit of the header or payload of an
encoded frame always makes unframe_data fail, and whenever the flip is not
in a magic or version bit of byte 0 (byte index 1 or more, or byte 0's
bit 6) the failure is IntegrityError; flips in byte 0's magic bits give
FormatError and flips in its version bits give UnsupportedVersionError,
not IntegrityError. -/
theorem unframe_data_single_bit_flip (payload : List Nat)
    (hp : ∀ b ∈ payload, b < 256) (qrnumber : ℚ) (off : Int)
    (h0 : 0 ≤ off) (h1 : off < 4294967296) (frame : List Nat)
    (hframe : frame_data_v1 payload qrnumber off = some frame)
    (i j : Nat) (hi : i < 5 + payload.length) (hj : j < 8) :
    (∃ e, unframe_data (flipBit frame i j) = Except.error e) ∧
    ((i = 0 → j = 6) →
      unframe_data (flipBit frame i j) = Except.error UnframeErr.crcMismatch) := by
  obtain ⟨ob, fb, hfr, hob4, hobB, hobv, hfb4, hfbB, hfbv⟩ :=
    frame_structure payload hp qrnumber off h0 h1
  rw [hframe] at hfr
  injection hfr with hfr2
  subst hfr2
  have hassoc : (0xb1 :: ob) ++ payload ++ fb = (0xb1 :: (ob ++ payload)) ++ fb := by
    simp
  rw [hassoc]
  have hbl : (0xb1 :: (ob ++ payload)).length = 5 + payload.length := by
    simp only [List.length_cons, List.length_append, hob4]
    omega
  have hiB : i < (0xb1 :: (ob ++ payload)).length := by
    rw [hbl]
    exact hi
  have hbodyB : ∀ b ∈ (0xb1 :: (ob ++ payload)), b < 256 := by
    intro b hb
    rcases List.mem_cons.mp hb with h | h
    · rw [h]
      norm_num
    · rcases List.mem_append.mp h with h2 | h2
      · exact hobB b h2
      · exact hp b h2
  have hmid4 : 4 ≤ (ob ++ payload).length := by
    simp only [List.length_append, hob4]
    omega
  have hflip : flipBit ((0xb1 :: (ob ++ payload)) ++ fb) i j =
      ((0xb1 :: (ob ++ payload)).set i
        ((0xb1 :: (ob ++ payload)).getD i 0 ^^^ 2 ^ j)) ++ fb := by
    unfold flipBit
    rw [List.set_append_left _ _ hiB, List.getD_eq_getElem?_getD,
      List.getElem?_append_left hiB, ← List.getD_eq_getElem?_getD]
  have hcrcne := crc32_set_ne (0xb1 :: (ob ++ payload)) hbodyB i j hiB hj
  have hMis : 1 ≤ i ∨ j = 6 →
      unframe_data (flipBit ((0xb1 :: (ob ++ payload)) ++ fb) i j) =
        Except.error UnframeErr.crcMismatch := by
    intro hcase
    rw [hflip]
    cases i with
    | zero =>
      have hj6 : j = 6 := by
        rcases hcase with h | h
        · omega
        · exact h
      subst hj6
      rw [show (0xb1 :: (ob ++ payload)).getD 0 0 = 0xb1 from rfl,
        show (0xb1 : Nat) ^^^ 2 ^ 6 = 0xf1 by decide,
        List.set_cons_zero] at hcrcne ⊢
      exact unframe_data_crc_reject 0xf1 (ob ++ payload) fb (by decide)
        (by decide) hmid4 hfb4 (by rw [hfbv]; exact hcrcne)
    | succ i2 =>
      rw [List.set_cons_succ] at hcrcne ⊢
      exact unframe_data_crc_reject 0xb1
        ((ob ++ payload).set i2 ((0xb1 :: (ob ++ payload)).getD (i2 + 1) 0 ^^^ 2 ^ j))
        fb (by decide) (by decide) (by rw [List.length_set]; exact hmid4) hfb4
        (by rw [hfbv]; exact hcrcne)
  constructor
  · rcases Nat.eq_zero_or_pos i with hiz | hipos
    · by_cases hj6 : j = 6
      · exact ⟨UnframeErr.crcMismatch, hMis (Or.inr hj6)⟩
      · subst hiz
        rw [hflip, show (0xb1 :: (ob ++ payload)).getD 0 0 = 0xb1 from rfl,
          List.set_cons_zero, List.cons_append]
        apply unframe_data_head_reject
        have hd : ∀ jj < 8, jj ≠ 6 →
            ((0xb1 ^^^ 2 ^ jj) &&& 0xb0 ≠ 0xb0 ∨ (0xb1 ^^^ 2 ^ jj) &&& 0xf ≠ 1) := by
          decide
        exact hd j hj hj6
    · exact ⟨UnframeErr.crcMismatch, hMis (Or.inl hipos)⟩
  · intro hcond
    rcases Nat.eq_zero_or_pos i with hiz | hipos
    · exact hMis (Or.inr (hcond hiz))
    · exact hMis (Or.inl hipos)

/-- Counterexample to C6 as stated: flipping bit 7 of byte 0 of a concrete
well-formed frame makes unframe_data fail with FormatError (the magic
check), not IntegrityError. -/
theorem unframe_data_bit_flip_not_integrity :
    (frame_data_v1 [65] 0 0).map (fun f => unframe_data (flipBit f 0 7)) =
      some (Except.error UnframeErr.badMagic) ∧
    UnframeErr.badMagic ≠ UnframeErr.crcMismatch :=
  ⟨rfl, by decide⟩

/-- Witness for C6 (amended): flipping bit 0 of byte 1 (an offset byte) of
a concrete frame yields IntegrityError. -/
theorem unframe_data_single_bit_flip_witness :
    unframe_data (flipBit ((frame_data_v1 [65] 0 0).getD []) 1 0) =
      Except.error UnframeErr.crcMismatch :=
  (unframe_data_single_bit_flip [65] (by decide) 0 0 (by decide) (by decide)
    ((frame_data_v1 [65] 0 0).getD []) rfl 1 0 (by decide) (by decide)).2
    (by decide)

-- Sanity checks of the CRC-32 embedding against reference values
-- computed with binascii.crc32.
example : crc32 [] 0 = 0 := by decide
example : crc32 [0xb1] 0 = 1852075159 := by decide
example : crc32 [0xf1, 0, 0, 0, 0] 0 = 3010891504 := by decide
example : crc32 [65, 66, 67] (crc32 [0xb1, 0, 0, 0, 0] 0) = 599577354 := by decide
example : crc32 [0xb1, 0, 0, 0, 0, 65, 66, 67] 0 = 599577354 := by decide

end PyPaperbak
